import Mathlib

/-!
Verification of the measure-rewriting, merging and emission algorithms of the
ABC-to-MusicXML converter (abc2xml.py), via a shallow embedding in Lean.

Durations are rational numbers represented as pairs of naturals (numerator,
denominator), exactly as the Python code carries them in `pObj.dur.t`.
-/

namespace AbcXml

/-- `simplify (a, b)`: divide `a` and `b` by their greatest common divisor
(abc2xml.py, `simplify`, lines 297-300).  The Python loop is Euclid's
algorithm, so the final value of its variable `a` is `Nat.gcd a b`. -/
def simplify (a b : Nat) : Nat × Nat :=
  (a / Nat.gcd a b, b / Nat.gcd a b)

/-- Value of a duration pair as a rational number (division by zero yields 0,
which never occurs for real durations). -/
def toRat (p : Nat × Nat) : ℚ :=
  (p.1 : ℚ) / (p.2 : ℚ)

/-- The duration rewriting done by `doBroken` (abc2xml.py, lines 302-320) on
the two durations around a broken-rhythm symbol.  Any symbol other than the
four recognized ones leaves both durations unchanged (the `else: return`
branch). -/
def doBrokenDurs (brk : String) (d1 d2 : Nat × Nat) : (Nat × Nat) × (Nat × Nat) :=
  if brk = ">" then (simplify (3 * d1.1) (2 * d1.2), simplify (1 * d2.1) (2 * d2.2))
  else if brk = "<" then (simplify (1 * d1.1) (2 * d1.2), simplify (3 * d2.1) (2 * d2.2))
  else if brk = ">>" then (simplify (7 * d1.1) (4 * d1.2), simplify (1 * d2.1) (4 * d2.2))
  else if brk = "<<" then (simplify (1 * d1.1) (4 * d1.2), simplify (7 * d2.1) (4 * d2.2))
  else (d1, d2)

theorem simplify_fst (a b : Nat) : (simplify a b).1 = a / Nat.gcd a b := rfl

theorem simplify_snd (a b : Nat) : (simplify a b).2 = b / Nat.gcd a b := rfl

/-- `simplify` does not change the rational value of a duration. -/
theorem toRat_simplify (a b : Nat) : toRat (simplify a b) = toRat (a, b) := by
  unfold toRat simplify
  simp only
  rcases Nat.eq_zero_or_pos (Nat.gcd a b) with hg | hg
  · have ha := Nat.eq_zero_of_gcd_eq_zero_left hg
    have hb := Nat.eq_zero_of_gcd_eq_zero_right hg
    simp [ha, hb]
  · have hgq : ((Nat.gcd a b : ℚ)) ≠ 0 := Nat.cast_ne_zero.mpr hg.ne'
    rw [Nat.cast_div (Nat.gcd_dvd_left a b) hgq, Nat.cast_div (Nat.gcd_dvd_right a b) hgq]
    rcases eq_or_ne b 0 with hb | hb
    · simp [hb]
    · have hbq : (b : ℚ) ≠ 0 := Nat.cast_ne_zero.mpr hb
      field_simp

/-- Rescaling factors of `doBrokenDurs`, as a lemma-friendly helper:
`toRat (k * a, m * b) = k / m * toRat (a, b)`. -/
theorem toRat_mul_mul (k m a b : Nat) (hm : (m : ℚ) ≠ 0) :
    toRat (k * a, m * b) = (k : ℚ) / (m : ℚ) * toRat (a, b) := by
  unfold toRat
  simp only
  push_cast
  rcases eq_or_ne (b : ℚ) 0 with hb | hb
  · simp [hb]
  · field_simp

/-!  ## Parse-tree elements of a measure

`pObj` nodes relevant to the rewrite passes.  A note records its duration
(`dur.t`), pitch (`pitch.t`), tie attribute, slur endings (`slurs.t`), the
"secondary chord note" flag set by `convertChord`, the list of all chord
pitches stored in a chord's first note, and the grace flag set by `doGrace`.
The XML/decoration payloads not inspected by the passes are not modelled. -/

/-- Pitch tuple (step letter, octave number) as used for tie bookkeeping. -/
abbrev Ptup := String × Int

inductive Elem where
  | note (dur : Nat × Nat) (pitch : Ptup) (tie : Bool) (slurs : List String)
         (chordFlag : Bool) (pitches : List Ptup) (grace : Bool)
  | rest (dur : Nat × Nat) (sym : String)
  | chord (dur : Nat × Nat) (tie : Bool) (slurs : List String) (objs : List Elem)
  | broken (sym : String)
  | deco (syms : List String)
  | other

/-- Elements with `x.name` in `note | chord | rest` (the stem-bearing ones). -/
def isStemE : Elem → Bool
  | .note .. => true
  | .rest .. => true
  | .chord .. => true
  | _ => false

def isNoteE : Elem → Bool
  | .note .. => true
  | _ => false

def isRestE : Elem → Bool
  | .rest .. => true
  | _ => false

/-- `x.dur.t` of a stem element (junk value for the others, never read). -/
def durE : Elem → Nat × Nat
  | .note d .. => d
  | .rest d _ => d
  | .chord d .. => d
  | _ => (0, 0)

/-- Assignment `x.dur.t = nom, den` of `doBroken`. -/
def setDurE (e : Elem) (d : Nat × Nat) : Elem :=
  match e with
  | .note _ p t s c ps g => .note d p t s c ps g
  | .rest _ sym => .rest d sym
  | .chord _ t s objs => .chord d t s objs
  | e => e

def brokenSymE : Elem → Option String
  | .broken sym => some sym
  | _ => none

/-- Scan state of `convertBroken` (abc2xml.py, lines 322-336): the measure
list (note durations are mutated in place), the index of the remembered
previous stem element, the pending broken symbol (`''` when none), and the
indexes of broken symbols to delete, highest first. -/
structure BrkState where
  t : List Elem
  prev : Option Nat
  brk : String
  rem : List Nat

/-- One iteration of the `convertBroken` scan at position `i`. -/
def brokenStep (st : BrkState) (i : Nat) : BrkState :=
  match st.t.get? i with
  | none => st
  | some x =>
    if isStemE x then
      if st.brk ≠ "" then
        match st.prev with
        | none => { st with brk := "" }   -- doBroken with prev == None: warn, no changes
        | some p =>
          match st.t.get? p with
          | none => { st with brk := "" }
          | some px =>
            let ds := doBrokenDurs st.brk (durE px) (durE x)
            { st with
              t := (st.t.set p (setDurE px ds.1)).set i (setDurE x ds.2)
              brk := "" }
      else { st with prev := some i }
    else
      match brokenSymE x with
      | some sym => { st with brk := sym, rem := i :: st.rem }
      | none => st

/-- `convertBroken` (abc2xml.py, lines 322-336): scan the measure, rewrite the
durations around each broken symbol via `doBroken`, then delete the broken
symbols from the highest index to the lowest. -/
def convertBroken (t : List Elem) : List Elem :=
  let st := (List.range t.length).foldl brokenStep ⟨t, none, "", []⟩
  st.rem.foldl (fun acc k => acc.eraseIdx k) st.t

/-- Pitches of all note members of a chord (`[n.pitch for n in x.note]`). -/
def chordPitches (objs : List Elem) : List Ptup :=
  objs.filterMap (fun e =>
    match e with
    | .note _ p .. => some p
    | _ => none)

/-- The member-rewriting loop of `convertChord` (abc2xml.py, lines 350-362)
over the chord's ordered elements `x.objs`, with chord duration `n1/d1`,
chord tie and chord slur endings; `j` counts the note members seen so far.
Note members get duration `simplify (n1*n2, d1*d2)`, the chord tie (when
present), the chord slur endings when first, and the secondary-chord-note
flag when not first; the first note also records all chord pitches.  Rest
members are dropped (name `rest` is excluded from `elms`); all other
members pass through unchanged. -/
def convertChordObjs (n1 d1 : Nat) (tie : Bool) (slurs : List String)
    (pits : List Ptup) : Nat → List Elem → List Elem
  | _, [] => []
  | j, .note (n2, d2) p t0 s0 c0 p0 g0 :: es =>
      .note (simplify (n1 * n2) (d1 * d2)) p
            (if tie then true else t0)
            (if j == 0 && !slurs.isEmpty then slurs else s0)
            (if j > 0 then true else c0)
            (if j == 0 then pits else p0)
            g0
        :: convertChordObjs n1 d1 tie slurs pits (j + 1) es
  | j, .rest _ _ :: es => convertChordObjs n1 d1 tie slurs pits j es
  | j, e :: es => e :: convertChordObjs n1 d1 tie slurs pits j es

/-- First rest member of a rest-only chord (`x.rest`, first when a list). -/
def firstRestE (objs : List Elem) : Elem :=
  match objs.find? isRestE with
  | some e => e
  | none => Elem.other

/-- Replacement of one measure element by `convertChord`: a rest-only chord
collapses to its single rest, any other chord is replaced by its rewritten
member sequence, anything else is kept. -/
def convertChordElem : Elem → List Elem
  | .chord d tie slurs objs =>
      if objs.any isRestE && !(objs.any isNoteE) then [firstRestE objs]
      else convertChordObjs d.1 d.2 tie slurs (chordPitches objs) 0 objs
  | e => [e]

/-- `convertChord` (abc2xml.py, lines 338-367).  The Python code collects the
replacements bottom-up and splices them in place from the highest chord
index to the lowest; the net effect on the measure list is this flat map. -/
def convertChord (t : List Elem) : List Elem :=
  (t.map convertChordElem).flatten

/-- `doMaat` (abc2xml.py, lines 369-371): the two rewrite passes, broken
rhythms first so that chord flattening sees post-broken-rhythm durations. -/
def doMaat (t : List Elem) : List Elem :=
  convertChord (convertBroken t)

/-- Durations attached to the stem-bearing elements of a measure. -/
def dursOf (t : List Elem) : List (Nat × Nat) :=
  t.filterMap (fun e => if isStemE e then some (durE e) else none)

/-- C1.  The broken-rhythm pass does NOT preserve the summed duration of the
two affected elements for every pair of positive durations: on the measure
`A > B` with `A` a whole note (1/1) and `B` a half note (1/2), the pass
rewrites the durations to 3/2 and 1/4, and 3/2 + 1/4 = 7/4 ≠ 3/2 = 1/1 + 1/2. -/
theorem convertBroken_sum_not_preserved :
    dursOf (convertBroken
        [Elem.note (1, 1) ("A", 0) false [] false [] false,
         Elem.broken ">",
         Elem.note (1, 2) ("B", 0) false [] false [] false]) = [(3, 2), (1, 4)]
    ∧ toRat (3, 2) + toRat (1, 4) ≠ toRat (1, 1) + toRat (1, 2) := by
  constructor
  · rfl
  · unfold toRat
    norm_num

/-- C1 (amended).  When the two durations around the broken symbol are equal
(the only case the shorthand is defined for), `doBroken` preserves their
sum, for `>`, `<`, `>>`, `<<` — and trivially for any unrecognized symbol,
which changes nothing. -/
theorem doBroken_preserves_sum_of_equal_durations (brk : String) (d1 d2 : Nat × Nat)
    (heq : toRat d1 = toRat d2) :
    toRat (doBrokenDurs brk d1 d2).1 + toRat (doBrokenDurs brk d1 d2).2 =
      toRat d1 + toRat d2 := by
  obtain ⟨a, b⟩ := d1
  obtain ⟨c, d⟩ := d2
  unfold doBrokenDurs
  split_ifs <;>
    simp only [toRat_simplify,
      toRat_mul_mul 3 2 _ _ (by norm_num), toRat_mul_mul 1 2 _ _ (by norm_num),
      toRat_mul_mul 7 4 _ _ (by norm_num), toRat_mul_mul 1 4 _ _ (by norm_num),
      heq] <;> ring

/-- Witness for the amended C1 theorem at `1/2 > 1/2`. -/
theorem doBroken_preserves_sum_witness :
    toRat (doBrokenDurs ">" (1, 2) (1, 2)).1 + toRat (doBrokenDurs ">" (1, 2) (1, 2)).2 =
      toRat (1, 2) + toRat (1, 2) :=
  doBroken_preserves_sum_of_equal_durations ">" (1, 2) (1, 2) rfl

/-! ## Chord flattening (C2) -/

/-- The note elements of a list, in order. -/
def notesOf (t : List Elem) : List Elem :=
  t.filter isNoteE

def tieE : Elem → Bool
  | .note _ _ t .. => t
  | .chord _ t _ _ => t
  | _ => false

def slursE : Elem → List String
  | .note _ _ _ s .. => s
  | .chord _ _ s _ => s
  | _ => []

def chordFlagE : Elem → Bool
  | .note _ _ _ _ c _ _ => c
  | _ => false

/-- The per-member rewriting `convertChordObjs` applies to its `j`-th note. -/
def chordXf (n1 d1 : Nat) (tie : Bool) (slurs : List String) (pits : List Ptup)
    (j : Nat) : Elem → Elem
  | .note (n2, d2) p t0 s0 c0 p0 g0 =>
      .note (simplify (n1 * n2) (d1 * d2)) p
            (if tie then true else t0)
            (if j == 0 && !slurs.isEmpty then slurs else s0)
            (if j > 0 then true else c0)
            (if j == 0 then pits else p0)
            g0
  | e => e

/-- Map with an explicit running index starting at `j`. -/
def mapIdxFrom (f : Nat → Elem → Elem) : Nat → List Elem → List Elem
  | _, [] => []
  | j, e :: es => f j e :: mapIdxFrom f (j + 1) es

/-- The notes produced by the member loop of `convertChord` are exactly the
input notes, in order, each rewritten according to its member index. -/
theorem notesOf_cons (e : Elem) (t : List Elem) :
    notesOf (e :: t) = if isNoteE e = true then e :: notesOf t else notesOf t := by
  simp [notesOf, List.filter_cons]

theorem mapIdxFrom_nil (f : Nat → Elem → Elem) (j : Nat) : mapIdxFrom f j [] = [] := rfl

theorem mapIdxFrom_cons (f : Nat → Elem → Elem) (j : Nat) (e : Elem) (es : List Elem) :
    mapIdxFrom f j (e :: es) = f j e :: mapIdxFrom f (j + 1) es := rfl

theorem convertChordObjs_notes (n1 d1 : Nat) (tie : Bool) (slurs : List String)
    (pits : List Ptup) (j : Nat) (objs : List Elem) :
    notesOf (convertChordObjs n1 d1 tie slurs pits j objs) =
      mapIdxFrom (chordXf n1 d1 tie slurs pits) j (notesOf objs) := by
  induction objs generalizing j with
  | nil => rfl
  | cons e es ih =>
    cases e with
    | note d p t0 s0 c0 p0 g0 =>
      obtain ⟨n2, d2⟩ := d
      simp [convertChordObjs, notesOf_cons, isNoteE, mapIdxFrom_cons, chordXf, ih]
    | rest d sym => simp [convertChordObjs, notesOf_cons, isNoteE, ih]
    | chord d t s o => simp [convertChordObjs, notesOf_cons, isNoteE, ih]
    | broken s => simp [convertChordObjs, notesOf_cons, isNoteE, ih]
    | deco s => simp [convertChordObjs, notesOf_cons, isNoteE, ih]
    | other => simp [convertChordObjs, notesOf_cons, isNoteE, ih]

theorem mem_mapIdxFrom (f : Nat → Elem → Elem) (l : List Elem) :
    ∀ (j : Nat) (x : Elem), x ∈ mapIdxFrom f j l → ∃ k e, e ∈ l ∧ x = f k e := by
  induction l with
  | nil => intro j x hx; simp [mapIdxFrom] at hx
  | cons e es ih =>
    intro j x hx
    rw [mapIdxFrom_cons] at hx
    rcases List.mem_cons.mp hx with hx | hx
    · exact ⟨j, e, List.mem_cons_self e es, hx⟩
    · obtain ⟨k, e', he', hxe⟩ := ih (j + 1) x hx
      exact ⟨k, e', List.mem_cons_of_mem e he', hxe⟩

/-- Members beyond the first (`j ≥ 1`) keep their own slur endings and are
all flagged as secondary chord notes. -/
theorem mapIdxFrom_chordXf_tail (n1 d1 : Nat) (tie : Bool) (slurs : List String)
    (pits : List Ptup) (l : List Elem) :
    ∀ (j : Nat), 1 ≤ j → (∀ e ∈ l, isNoteE e = true) →
    (mapIdxFrom (chordXf n1 d1 tie slurs pits) j l).map slursE = l.map slursE
    ∧ (mapIdxFrom (chordXf n1 d1 tie slurs pits) j l).map chordFlagE =
        l.map (fun _ => true) := by
  induction l with
  | nil => intro j _ _; simp [mapIdxFrom]
  | cons e es ih =>
    intro j hj hl
    have he : isNoteE e = true := hl e (List.mem_cons_self e es)
    have hes : ∀ x ∈ es, isNoteE x = true := fun x hx => hl x (List.mem_cons_of_mem e hx)
    have hj0 : (j == 0) = false := by
      cases j with
      | zero => omega
      | succ n => rfl
    have hjpos : j > 0 := by omega
    obtain ⟨ih1, ih2⟩ := ih (j + 1) (by omega) hes
    cases e with
    | note d p t0 s0 c0 p0 g0 =>
      obtain ⟨n2, d2⟩ := d
      constructor <;>
        simp [mapIdxFrom_cons, chordXf, slursE, chordFlagE, hj0, hjpos, ih1, ih2]
    | rest d sym => simp [isNoteE] at he
    | chord d t s objs => simp [isNoteE] at he
    | broken s => simp [isNoteE] at he
    | deco s => simp [isNoteE] at he
    | other => simp [isNoteE] at he

/-- The rewritten duration of every member note is the simplified product of
the chord duration and its own duration, independent of the member index. -/
theorem mapIdxFrom_chordXf_durs (n1 d1 : Nat) (tie : Bool) (slurs : List String)
    (pits : List Ptup) (l : List Elem) :
    ∀ (j : Nat), (∀ x ∈ l, isNoteE x = true) →
      (mapIdxFrom (chordXf n1 d1 tie slurs pits) j l).map durE =
        l.map (fun x => simplify (n1 * (durE x).1) (d1 * (durE x).2)) := by
  induction l with
  | nil => intro j _; rfl
  | cons x xs ihx =>
    intro j hl
    have hx : isNoteE x = true := hl x (List.mem_cons_self x xs)
    have hxs : ∀ y ∈ xs, isNoteE y = true := fun y hy => hl y (List.mem_cons_of_mem x hy)
    cases x with
    | note d p t0 s0 c0 p0 g0 =>
      obtain ⟨n2, d2⟩ := d
      simp [mapIdxFrom_cons, chordXf, durE, ihx (j + 1) hxs]
    | rest d sym => simp [isNoteE] at hx
    | chord d t s o => simp [isNoteE] at hx
    | broken s => simp [isNoteE] at hx
    | deco s => simp [isNoteE] at hx
    | other => simp [isNoteE] at hx

/-- C2.  Flattening a chord with duration `n1/d1`: every member note's final
duration is `simplify (n1 * n2, d1 * d2)` where `n2/d2` is the member's own
duration; a tie on the chord suffix is copied to every member note; the
chord's slur endings are copied only to the first member (later members keep
their own); every member except the first is flagged as a secondary chord
note. -/
theorem convertChord_member_properties (n1 d1 : Nat) (tie : Bool) (slurs : List String)
    (objs : List Elem) (hnote : objs.any isNoteE = true) :
    ∀ out, out = convertChord [Elem.chord (n1, d1) tie slurs objs] →
    ((notesOf out).map durE =
        (notesOf objs).map (fun e => simplify (n1 * (durE e).1) (d1 * (durE e).2)))
    ∧ (tie = true → ∀ e ∈ notesOf out, tieE e = true)
    ∧ (slurs ≠ [] →
        (notesOf out).map slursE =
          (match notesOf objs with
           | [] => []
           | _ :: rest => slurs :: rest.map slursE))
    ∧ ((notesOf out).map chordFlagE =
        (match notesOf objs with
         | [] => []
         | e0 :: rest => chordFlagE e0 :: rest.map (fun _ => true))) := by
  intro out hdef
  have hguard : (objs.any isRestE && !(objs.any isNoteE)) = false := by
    rw [hnote]
    simp
  have hout : out = convertChordObjs n1 d1 tie slurs (chordPitches objs) 0 objs := by
    rw [hdef]
    simp [convertChord, convertChordElem, hguard]
  have hnotes : notesOf out =
      mapIdxFrom (chordXf n1 d1 tie slurs (chordPitches objs)) 0 (notesOf objs) := by
    rw [hout, convertChordObjs_notes]
  have hall : ∀ e ∈ notesOf objs, isNoteE e = true := by
    intro e he
    exact List.of_mem_filter he
  refine ⟨?_, ?_, ?_, ?_⟩
  · -- durations
    rw [hnotes]
    exact mapIdxFrom_chordXf_durs n1 d1 tie slurs (chordPitches objs) (notesOf objs) 0 hall
  · -- tie propagation
    intro htie x hx
    rw [hnotes] at hx
    obtain ⟨k, e, he, hxe⟩ := mem_mapIdxFrom _ _ _ _ hx
    have hne : isNoteE e = true := hall e he
    cases e with
    | note d p t0 s0 c0 p0 g0 =>
      obtain ⟨n2, d2⟩ := d
      subst hxe
      simp [chordXf, tieE, htie]
    | rest d sym => simp [isNoteE] at hne
    | chord d t s o => simp [isNoteE] at hne
    | broken s => simp [isNoteE] at hne
    | deco s => simp [isNoteE] at hne
    | other => simp [isNoteE] at hne
  · -- chord slur endings only on the first member
    intro hslurs
    rw [hnotes]
    cases hl : notesOf objs with
    | nil => rfl
    | cons e es =>
      have he : isNoteE e = true := hall e (by rw [hl]; exact List.mem_cons_self e es)
      have hes : ∀ x ∈ es, isNoteE x = true := fun x hx =>
        hall x (by rw [hl]; exact List.mem_cons_of_mem e hx)
      have htail := (mapIdxFrom_chordXf_tail n1 d1 tie slurs (chordPitches objs)
        es 1 (le_refl 1) hes).1
      have hse : !slurs.isEmpty = true := by
        cases slurs with
        | nil => exact absurd rfl hslurs
        | cons a l => rfl
      cases e with
      | note d p t0 s0 c0 p0 g0 =>
        obtain ⟨n2, d2⟩ := d
        simp [mapIdxFrom_cons, chordXf, slursE, hse, htail, hslurs]
      | rest d sym => simp [isNoteE] at he
      | chord d t s o => simp [isNoteE] at he
      | broken s => simp [isNoteE] at he
      | deco s => simp [isNoteE] at he
      | other => simp [isNoteE] at he
  · -- secondary chord-note flags
    rw [hnotes]
    cases hl : notesOf objs with
    | nil => rfl
    | cons e es =>
      have he : isNoteE e = true := hall e (by rw [hl]; exact List.mem_cons_self e es)
      have hes : ∀ x ∈ es, isNoteE x = true := fun x hx =>
        hall x (by rw [hl]; exact List.mem_cons_of_mem e hx)
      have htail := (mapIdxFrom_chordXf_tail n1 d1 tie slurs (chordPitches objs)
        es 1 (le_refl 1) hes).2
      cases e with
      | note d p t0 s0 c0 p0 g0 =>
        obtain ⟨n2, d2⟩ := d
        simp [mapIdxFrom_cons, chordXf, chordFlagE, htail]
      | rest d sym => simp [isNoteE] at he
      | chord d t s o => simp [isNoteE] at he
      | broken s => simp [isNoteE] at he
      | deco s => simp [isNoteE] at he
      | other => simp [isNoteE] at he

/-- Chord members for the C2 witness: a chord of duration 3/2 over two notes
with unequal own fractions 1/2 and 3/4, carrying a tie and a slur ending. -/
def demoChordObjs : List Elem :=
  [Elem.note (1, 2) ("C", 0) false [] false [] false,
   Elem.note (3, 4) ("E", 0) false [] false [] false]

/-- Witness for C2 on a concrete multi-note chord with unequal member
fractions: durations become `simplify (3*1, 2*2) = 3/4` and
`simplify (3*3, 2*4) = 9/8`, the slur ending lands on the first member only,
the second member is flagged as a secondary chord note, and the chord tie is
copied to the members. -/
theorem convertChord_member_properties_witness :
    (notesOf (convertChord [Elem.chord (3, 2) true [")"] demoChordObjs])).map durE
        = [(3, 4), (9, 8)]
    ∧ (notesOf (convertChord [Elem.chord (3, 2) true [")"] demoChordObjs])).map slursE
        = [[")"], []]
    ∧ (notesOf (convertChord [Elem.chord (3, 2) true [")"] demoChordObjs])).map chordFlagE
        = [false, true]
    ∧ tieE (Elem.note (3, 4) ("C", 0) true [")"] false [("C", 0), ("E", 0)] false) = true := by
  have h := convertChord_member_properties 3 2 true [")"] demoChordObjs (by rfl)
    (convertChord [Elem.chord (3, 2) true [")"] demoChordObjs]) rfl
  have hx : notesOf (convertChord [Elem.chord (3, 2) true [")"] demoChordObjs]) =
      [Elem.note (3, 4) ("C", 0) true [")"] false [("C", 0), ("E", 0)] false,
       Elem.note (9, 8) ("E", 0) true [] true [] false] := rfl
  refine ⟨?_, ?_, ?_, ?_⟩
  · rw [h.1]; rfl
  · rw [h.2.2.1 (by simp)]; rfl
  · rw [h.2.2.2]; rfl
  · exact h.2.1 rfl _ (by rw [hx]; exact List.mem_cons_self _ _)

/-! ## Duration invariants after the rewrite passes (C3) -/

/-- Denominator is a power of two not exceeding 64. -/
def isPow2Le64 (d : Nat) : Bool :=
  d = 1 || d = 2 || d = 4 || d = 8 || d = 16 || d = 32 || d = 64

/-- C3 fails on the code: the rewrite passes only touch durations adjacent to
a broken symbol or inside a chord.  A measure consisting of one plain note
whose parsed duration is 2/6 passes through `doMaat` unchanged, and 2/6 has
`gcd 2 6 = 2 ≠ 1` with a denominator that is not a power of two. -/
theorem doMaat_duration_invariant_fails :
    dursOf (doMaat [Elem.note (2, 6) ("A", 0) false [] false [] false]) = [(2, 6)]
    ∧ ¬(Nat.gcd 2 6 = 1 ∧ isPow2Le64 6 = true) := by
  constructor
  · rfl
  · decide

/-- C3 (amended).  What the passes do guarantee: every duration they rewrite
is produced by `simplify`, and `simplify` always returns a fraction in lowest
terms (whenever its input is not the degenerate pair (0, 0)).  Durations the
passes do not touch are passed through as parsed, so neither `gcd = 1` nor
the power-of-two-≤-64 denominator bound holds for all post-pass durations;
the ≤ 64 bound is only enforced later, in `mkNote`. -/
theorem simplify_coprime (a b : Nat) (h : a ≠ 0 ∨ b ≠ 0) :
    Nat.gcd (simplify a b).1 (simplify a b).2 = 1 := by
  have hg : 0 < Nat.gcd a b := by
    rcases h with h | h
    · exact Nat.gcd_pos_of_pos_left b (Nat.pos_of_ne_zero h)
    · exact Nat.gcd_pos_of_pos_right a (Nat.pos_of_ne_zero h)
  exact Nat.coprime_div_gcd_div_gcd hg

/-- Witness for the amended C3 theorem: `simplify 4 6 = (2, 3)` is coprime. -/
theorem simplify_coprime_witness : Nat.gcd (simplify 4 6).1 (simplify 4 6).2 = 1 :=
  simplify_coprime 4 6 (Or.inl (by decide))

/-! ## Attribute-block ordering in doFields (C4)

`doFields` (abc2xml.py, lines 1098-1253) collects xml attribute elements as
pairs `(order-number, element)` — divisions→1, key→2, time→3, staves→4,
clef→7, staff-details→8, transpose→9 — and finally emits them sorted by the
order number (`sorted (atts, key=lambda x: x[0])`, a stable ascending sort). -/

inductive AttElm where
  | divisions | key | time | staves | clef | staffDetails | transpose
deriving DecidableEq

/-- The order numbers attached by `doFields` when collecting into `atts`. -/
def attPrio : AttElm → Nat
  | .divisions => 1
  | .key => 2
  | .time => 3
  | .staves => 4
  | .clef => 7
  | .staffDetails => 8
  | .transpose => 9

/-- Stable insertion into an ascending list (the element goes before the
first entry with an order number ≥ its own only if strictly before the
entries it must precede; equal keys keep encounter order). -/
def ordInsertAtt (x : Nat × AttElm) : List (Nat × AttElm) → List (Nat × AttElm)
  | [] => [x]
  | y :: ys => if x.1 ≤ y.1 then x :: y :: ys else y :: ordInsertAtt x ys

/-- Stable ascending sort by order number, the behaviour of Python's
`sorted` with `key=lambda x: x[0]`. -/
def sortAtts : List (Nat × AttElm) → List (Nat × AttElm)
  | [] => []
  | x :: xs => ordInsertAtt x (sortAtts xs)

/-- The attribute block emitted by `doFields` for the attribute elements
collected in encounter order. -/
def doFieldsAttBlock (collected : List AttElm) : List AttElm :=
  (sortAtts (collected.map (fun e => (attPrio e, e)))).map (·.2)

theorem mem_ordInsertAtt (x y : Nat × AttElm) (l : List (Nat × AttElm)) :
    y ∈ ordInsertAtt x l ↔ y = x ∨ y ∈ l := by
  induction l with
  | nil => simp [ordInsertAtt]
  | cons z zs ih =>
    by_cases h : x.1 ≤ z.1
    · simp [ordInsertAtt, h]
    · simp only [ordInsertAtt, if_neg h, List.mem_cons, ih]
      tauto

theorem perm_ordInsertAtt (x : Nat × AttElm) (l : List (Nat × AttElm)) :
    (ordInsertAtt x l).Perm (x :: l) := by
  induction l with
  | nil => simp [ordInsertAtt]
  | cons z zs ih =>
    by_cases h : x.1 ≤ z.1
    · simp [ordInsertAtt, h]
    · simp only [ordInsertAtt, if_neg h]
      exact (ih.cons z).trans (List.Perm.swap x z zs)

theorem perm_sortAtts (l : List (Nat × AttElm)) : (sortAtts l).Perm l := by
  induction l with
  | nil => simp [sortAtts]
  | cons x xs ih =>
    exact (perm_ordInsertAtt x (sortAtts xs)).trans (ih.cons x)

theorem pairwise_ordInsertAtt (x : Nat × AttElm) (l : List (Nat × AttElm))
    (hl : List.Pairwise (fun a b => a.1 ≤ b.1) l) :
    List.Pairwise (fun a b => a.1 ≤ b.1) (ordInsertAtt x l) := by
  induction l with
  | nil => simp [ordInsertAtt]
  | cons z zs ih =>
    rcases List.pairwise_cons.mp hl with ⟨hz, hzs⟩
    by_cases h : x.1 ≤ z.1
    · simp only [ordInsertAtt, if_pos h]
      refine List.pairwise_cons.mpr ⟨?_, hl⟩
      intro y hy
      rcases List.mem_cons.mp hy with rfl | hy
      · exact h
      · exact le_trans h (hz y hy)
    · simp only [ordInsertAtt, if_neg h]
      refine List.pairwise_cons.mpr ⟨?_, ih hzs⟩
      intro y hy
      rcases (mem_ordInsertAtt x y zs).mp hy with rfl | hy
      · omega
      · exact hz y hy

theorem pairwise_sortAtts (l : List (Nat × AttElm)) :
    List.Pairwise (fun a b => a.1 ≤ b.1) (sortAtts l) := by
  induction l with
  | nil => simp [sortAtts]
  | cons x xs ih => exact pairwise_ordInsertAtt x (sortAtts xs) ih

/-- C4 fails on the code: with a time signature and a key both pending, the
emitted attribute block is `[key, time]` (order numbers 2 < 3), not
`[time, key]`; likewise staff-details (8) precedes transpose (9). -/
theorem doFields_order_counterexample :
    doFieldsAttBlock [AttElm.time, AttElm.key] = [AttElm.key, AttElm.time]
    ∧ doFieldsAttBlock [AttElm.time, AttElm.key] ≠ [AttElm.time, AttElm.key]
    ∧ doFieldsAttBlock [AttElm.transpose, AttElm.staffDetails]
        = [AttElm.staffDetails, AttElm.transpose] := by
  refine ⟨rfl, ?_, rfl⟩
  decide

/-- C4 (amended).  The attribute block contains exactly the collected
elements, reordered ascending by the fixed order numbers divisions(1),
key(2), time(3), staves(4), clef(7), staff-details(8), transpose(9),
regardless of encounter order — so key precedes time, time precedes clef,
clef precedes staff-details and staff-details precedes transpose. -/
theorem doFields_attBlock_sorted (collected : List AttElm) :
    List.Pairwise (fun a b => attPrio a ≤ attPrio b) (doFieldsAttBlock collected)
    ∧ (doFieldsAttBlock collected).Perm collected := by
  constructor
  · have hmem : ∀ a ∈ sortAtts (collected.map (fun e => (attPrio e, e))),
        a.1 = attPrio a.2 := by
      intro a ha
      have := (perm_sortAtts (collected.map (fun e => (attPrio e, e)))).mem_iff.mp ha
      obtain ⟨e, _, rfl⟩ := List.mem_map.mp this
      rfl
    have hp := pairwise_sortAtts (collected.map (fun e => (attPrio e, e)))
    have hp' : List.Pairwise (fun a b : Nat × AttElm => attPrio a.2 ≤ attPrio b.2)
        (sortAtts (collected.map (fun e => (attPrio e, e)))) := by
      refine List.Pairwise.imp_of_mem ?_ hp
      intro a b ha hb hab
      rw [← hmem a ha, ← hmem b hb]
      exact hab
    exact List.pairwise_map.mpr hp'
  · have h2 : List.map (fun x : Nat × AttElm => x.2)
        (List.map (fun e => (attPrio e, e)) collected) = collected := by
      induction collected with
      | nil => rfl
      | cons a l ih => simpa using ih
    have h1 := (perm_sortAtts (collected.map (fun e => (attPrio e, e)))).map
      (fun x : Nat × AttElm => x.2)
    rw [h2] at h1
    exact h1

/-! ## Grand-staff acceptance (C8)

`mkGrand` (abc2xml.py, lines 630-647) transforms the parse tree of a
score/staves directive.  For a `grand` node, the transformed result `us` is
the marker (`'{'` or `'{*'`) followed by the voice ids; the group is
accepted when exactly one of the defined member voices has a non-empty name
(`sum ([1 for nm in nms if nm]) == 1`) or the marker is the unconditional
form `'{*'`; an accepted group is appended as one list, a rejected group's
voice ids are extended into the result individually. -/

inductive GNode where
  | vid (id : String)
  | grand (marker : String) (vids : List String)

inductive GItem where
  | single (id : String)
  | group (ids : List String)

/-- `nms = [vdefs[u][0] for u in vids if u in vdefs]`: the display names of
the group's members that are defined, in group order (`vdefs` maps a voice
id to its display name). -/
def grandNames (vdefs : List (String × String)) (vids : List String) : List String :=
  vids.filterMap (fun v => vdefs.lookup v)

/-- Transformation of one score-directive node by `mkGrand`. -/
def mkGrandOne (vdefs : List (String × String)) : GNode → List GItem
  | .vid id => [.single id]
  | .grand marker vids =>
    if ((grandNames vdefs vids).filter (fun nm => !nm.isEmpty)).length == 1
        || marker == "\x7b*" then [.group vids]
    else vids.map GItem.single

/-- `mkGrand` over the top-level children of the directive's parse tree. -/
def mkGrandList (vdefs : List (String × String)) (xs : List GNode) : List GItem :=
  (xs.map (mkGrandOne vdefs)).flatten

/-- C8.  A grand-staff group is accepted (emitted as one merged group)
exactly when exactly one member voice has a non-empty display name or the
group used the unconditional marker `'{*'`; otherwise its voices pass
through individually. -/
theorem mkGrand_accept_iff (vdefs : List (String × String)) (marker : String)
    (vids : List String) :
    (mkGrandOne vdefs (.grand marker vids) = [GItem.group vids]
      ↔ (((grandNames vdefs vids).filter (fun nm => !nm.isEmpty)).length = 1
          ∨ marker = "\x7b*"))
    ∧ (¬(((grandNames vdefs vids).filter (fun nm => !nm.isEmpty)).length = 1
          ∨ marker = "\x7b*") →
        mkGrandOne vdefs (.grand marker vids) = vids.map GItem.single) := by
  have hcond : (((grandNames vdefs vids).filter (fun nm => !nm.isEmpty)).length == 1
      || marker == "\x7b*") = true
      ↔ (((grandNames vdefs vids).filter (fun nm => !nm.isEmpty)).length = 1
          ∨ marker = "\x7b*") := by
    simp
  constructor
  · constructor
    · intro hres
      by_contra hacc
      rw [← hcond] at hacc
      simp only [mkGrandOne, Bool.not_eq_true] at hres
      rw [Bool.not_eq_true] at hacc
      rw [if_neg (by simp [hacc])] at hres
      cases vids with
      | nil => simp at hres
      | cons v vs =>
        cases vs with
        | nil => simp at hres
        | cons w ws => simp at hres
    · intro hacc
      simp only [mkGrandOne]
      rw [if_pos (hcond.mpr hacc)]
  · intro hacc
    rw [← hcond] at hacc
    rw [Bool.not_eq_true] at hacc
    simp only [mkGrandOne]
    rw [if_neg (by simp [hacc])]

/-- Witness for C8: a two-voice group where only the first voice is named is
accepted; the same group with both voices named is rejected and passed
through individually. -/
theorem mkGrand_accept_witness :
    mkGrandOne [("1", "Piano"), ("2", "")] (.grand "\x7b" ["1", "2"])
      = [GItem.group ["1", "2"]]
    ∧ mkGrandOne [("1", "Piano"), ("2", "Viola")] (.grand "\x7b" ["1", "2"])
      = [GItem.single "1", GItem.single "2"] := by
  constructor
  · exact (mkGrand_accept_iff [("1", "Piano"), ("2", "")] "\x7b" ["1", "2"]).1.mpr
      (Or.inl (by decide))
  · exact (mkGrand_accept_iff [("1", "Piano"), ("2", "Viola")] "\x7b" ["1", "2"]).2
      (by decide)

/-! ## Slur-close handling (C9)

`doNotations` (abc2xml.py, lines 990-995): for each slur ending on a note,
`if not s.slurstack: break` then `slurnum = s.slurstack.pop ()` and a
slur-stop element with that number is emitted.  The stack is a Python list,
`pop` removes its last element. -/

/-- Process the slur-close markers of one note against the open-slur stack:
returns the remaining stack and the emitted slur-stop numbers, in emission
order. -/
def doSlurEnds : List String → List Nat → List Nat × List Nat
  | [], st => (st, [])
  | _ :: _, [] => ([], [])
  | _ :: ds, s :: st =>
    ((doSlurEnds ds ((s :: st).dropLast)).1,
      (s :: st).getLastD 0 :: (doSlurEnds ds ((s :: st).dropLast)).2)

theorem doSlurEnds_lengths (ds : List String) : ∀ st : List Nat,
    (doSlurEnds ds st).2.length = min ds.length st.length
    ∧ (doSlurEnds ds st).1.length + (doSlurEnds ds st).2.length = st.length := by
  induction ds with
  | nil => intro st; simp [doSlurEnds]
  | cons d ds ih =>
    intro st
    cases st with
    | nil => simp [doSlurEnds]
    | cons s stt =>
      obtain ⟨h1, h2⟩ := ih ((s :: stt).dropLast)
      have hd : ((s :: stt).dropLast).length = stt.length := by
        simp [List.length_dropLast]
      rw [hd] at h1 h2
      simp only [doSlurEnds, List.length_cons]
      omega

/-- C9.  Closing slurs never underflows: on an empty stack every close is a
no-op (nothing emitted, stack stays empty); in general the number of emitted
slur-stops is `min (closes, stack size)` — never more than the open count —
and stack size is conserved (remaining + emitted = original), so no negative
open-slur count can arise. -/
theorem slur_close_no_underflow (ds : List String) (st : List Nat) :
    doSlurEnds ds [] = ([], [])
    ∧ (doSlurEnds ds st).2.length = min ds.length st.length
    ∧ (doSlurEnds ds st).1.length + (doSlurEnds ds st).2.length = st.length := by
  refine ⟨?_, (doSlurEnds_lengths ds st).1, (doSlurEnds_lengths ds st).2⟩
  cases ds with
  | nil => rfl
  | cons d ds => rfl

/-! ## Measure and part merging (C5, C10)

Shallow embedding of the emitted xml measures consumed by `mergeMeasure`
(abc2xml.py, lines 540-570) and `mergePartList` (lines 572-594).  A note
element records its grace/chord/rest children (presence flags), its duration
text, its slur numbers (`note/notations/slur@number`), its voice number and
its lyric verse numbers; the other measure children relevant to the merge
are backups (with duration), attributes (with the tags of their children),
print and direction elements. -/

inductive PElm where
  | note (grace chrd isRest : Bool) (dur : Nat) (slurs : List Nat)
         (voice : Nat) (lyrics : List Nat)
  | backup (dur : Nat)
  | attributes (children : List String)
  | printE
  | direction
deriving DecidableEq

/-- The renumbering `mergeMeasure` applies to the second measure: slur
numbers shifted by `slur_offset`, voice numbers by `voice_offset`, lyric
verse numbers by the highest verse number of the first measure. -/
def renumPElm (slurOff voiceOff lyrOff : Nat) : PElm → PElm
  | .note g c r d sl v ly =>
      .note g c r d (sl.map (· + slurOff)) (v + voiceOff) (ly.map (· + lyrOff))
  | e => e

def slurNums (m : List PElm) : List Nat :=
  (m.map (fun e =>
    match e with
    | PElm.note _ _ _ _ sl _ _ => sl
    | _ => [])).flatten

def voiceNums (m : List PElm) : List Nat :=
  m.filterMap (fun e =>
    match e with
    | PElm.note _ _ _ _ _ v _ => some v
    | _ => none)

def lyrNums (m : List PElm) : List Nat :=
  (m.map (fun e =>
    match e with
    | PElm.note _ _ _ _ _ _ ly => ly
    | _ => [])).flatten

/-- `max ([...] + [0])` over the lyric numbers of a measure. -/
def lyrMax (m : List PElm) : Nat :=
  (lyrNums m).foldr Nat.max 0

/-- Contribution of an element to `dur1`: the duration of a note having
neither a grace nor a chord child. -/
def noteRealDur : PElm → Nat
  | .note g c _ d _ _ _ => if g || c then 0 else d
  | _ => 0

def backupDur : PElm → Nat
  | .backup d => d
  | _ => 0

/-- `dur1` of `mergeMeasure`: total duration of the first measure's
non-grace non-chord notes minus the durations of its existing backups. -/
def realDur (m : List PElm) : Int :=
  ((m.map noteRealDur).sum : Int) - ((m.map backupDur).sum : Int)

/-- Real note (a note without a rest child): always counts towards `nns`. -/
def isRealNote : PElm → Bool
  | .note _ _ r _ _ _ _ => !r
  | _ => false

/-- Whether an element of the second measure counts towards `nns`:
attributes only for a grand staff, notes when `rOpt` is set or they are not
rests. -/
def countsReal (rOpt isGrand : Bool) : PElm → Bool
  | .attributes _ => isGrand
  | .note _ _ r _ _ _ _ => rOpt || !r
  | _ => false

/-- Whether an element of the second measure is buffered into `es`:
attributes are skipped unless merging a grand staff, print elements are
always skipped. -/
def keepInMerge (isGrand : Bool) : PElm → Bool
  | .attributes _ => isGrand
  | .printE => false
  | _ => true

def nnsCount (rOpt isGrand : Bool) (m : List PElm) : Nat :=
  (m.filter (countsReal rOpt isGrand)).length

def mergeBuf (isGrand : Bool) (m : List PElm) : List PElm :=
  m.filter (keepInMerge isGrand)

/-- `mergeMeasure` (abc2xml.py, lines 540-570): renumber the second
measure's slur/voice/lyric numbers, and if it contains any real notes,
append — after a backup of `dur1` when `dur1 > 0` — its buffered elements
to the first measure. -/
def mergeMeasure (m1 m2 : List PElm) (slurOff voiceOff : Nat)
    (rOpt isGrand : Bool) : List PElm :=
  if 0 < nnsCount rOpt isGrand (m2.map (renumPElm slurOff voiceOff (lyrMax m1))) then
    m1 ++ (if 0 < realDur m1 then [PElm.backup (realDur m1).toNat] else [])
      ++ mergeBuf isGrand (m2.map (renumPElm slurOff voiceOff (lyrMax m1)))
  else m1

theorem slurNums_renum (m : List PElm) (so vo lo : Nat) :
    slurNums (m.map (renumPElm so vo lo)) = (slurNums m).map (· + so) := by
  induction m with
  | nil => rfl
  | cons e es ih =>
    cases e <;> simp [slurNums, renumPElm, List.map_cons, List.flatten] at ih ⊢ <;>
      exact ih

theorem isRealNote_renum (e : PElm) (so vo lo : Nat) :
    isRealNote (renumPElm so vo lo e) = isRealNote e := by
  cases e <;> rfl

/-- C5.  When the second measure contains at least one real note, the merge
appends to the first measure a backup whose duration is exactly the first
measure's total non-grace non-chord note duration minus its existing backup
durations (`realDur`) — omitted when that value is not positive — followed
by the second measure's buffered elements; and, provided the slur offset
dominates every slur number of the first measure (as `mergePartList`
arranges by passing the maximum) and the second measure's slur numbers are
positive (the emitter numbers slurs from 1), no renumbered slur number of
the second measure collides with one of the first. -/
theorem mergeMeasure_spec (m1 m2 : List PElm) (slurOff voiceOff : Nat)
    (rOpt isGrand : Bool)
    (hreal : m2.any isRealNote = true)
    (hm1 : ∀ s ∈ slurNums m1, s ≤ slurOff)
    (hm2 : ∀ s ∈ slurNums m2, 1 ≤ s) :
    mergeMeasure m1 m2 slurOff voiceOff rOpt isGrand =
      m1 ++ (if 0 < realDur m1 then [PElm.backup (realDur m1).toNat] else [])
        ++ mergeBuf isGrand (m2.map (renumPElm slurOff voiceOff (lyrMax m1)))
    ∧ ∀ s ∈ slurNums (m2.map (renumPElm slurOff voiceOff (lyrMax m1))),
        s ∉ slurNums m1 := by
  constructor
  · obtain ⟨e, hem, hre⟩ := List.any_eq_true.mp hreal
    have hre' : countsReal rOpt isGrand (renumPElm slurOff voiceOff (lyrMax m1) e) = true := by
      cases e with
      | note g c r d sl v ly =>
        simp only [isRealNote] at hre
        simp [renumPElm, countsReal, hre]
      | backup d => simp [isRealNote] at hre
      | attributes cs => simp [isRealNote] at hre
      | printE => simp [isRealNote] at hre
      | direction => simp [isRealNote] at hre
    have hmem : renumPElm slurOff voiceOff (lyrMax m1) e ∈
        m2.map (renumPElm slurOff voiceOff (lyrMax m1)) :=
      List.mem_map_of_mem _ hem
    have hpos : 0 < nnsCount rOpt isGrand
        (m2.map (renumPElm slurOff voiceOff (lyrMax m1))) := by
      apply List.length_pos.mpr
      exact List.ne_nil_of_mem (List.mem_filter.mpr ⟨hmem, hre'⟩)
    unfold mergeMeasure
    rw [if_pos hpos]
  · intro s hs hs1
    rw [slurNums_renum] at hs
    obtain ⟨s0, hs0, rfl⟩ := List.mem_map.mp hs
    have h1 := hm2 s0 hs0
    have h2 := hm1 _ hs1
    omega

/-- Concrete first measure for the C5 witness. -/
def demoM1 : List PElm := [PElm.note false false false 480 [1] 1 []]

/-- Concrete second measure for the C5 witness. -/
def demoM2 : List PElm := [PElm.note false false false 240 [1] 1 []]

/-- Witness for C5: merging a quarter-note measure into a half-note measure
inserts a backup of 480 and shifts the second voice's slur number 1 to 2,
which does not occur in the first measure. -/
theorem mergeMeasure_spec_witness :
    mergeMeasure demoM1 demoM2 1 1 false false =
      [PElm.note false false false 480 [1] 1 [],
       PElm.backup 480,
       PElm.note false false false 240 [2] 2 []]
    ∧ (2 : Nat) ∉ slurNums demoM1 := by
  have h := mergeMeasure_spec demoM1 demoM2 1 1 false false rfl
    (by decide) (by decide)
  constructor
  · rw [h.1]; rfl
  · refine h.2 2 ?_
    have hx : slurNums (demoM2.map (renumPElm 1 1 (lyrMax demoM1))) = [2] := rfl
    rw [hx]
    exact List.mem_cons_self _ _

/-! ## Part list merging (C10) -/

/-- An emitted measure: its number attribute and its elements. -/
abbrev Meas := Nat × List PElm

/-- The padding loop of `mergePartList` (abc2xml.py, lines 585-587): when the
second part is longer, empty measures numbered `len(p1)+1 .. len(p2)` are
appended to the first part. -/
def padPart (p1 : List Meas) (n2 : Nat) : List Meas :=
  p1 ++ (List.range' (p1.length + 1) (n2 - p1.length)).map (fun i => (i, ([] : List PElm)))

/-- Highest slur number used in a part (`slur_max`, 0 when none). -/
def slurMaxPart (p : List Meas) : Nat :=
  ((p.map (fun m => slurNums m.2)).flatten).foldr Nat.max 0

/-- Highest voice number used in a part (`vnum_max`, 0 when none). -/
def voiceMaxPart (p : List Meas) : Nat :=
  ((p.map (fun m => voiceNums m.2)).flatten).foldr Nat.max 0

/-- `delAttrs` applied to one measure (grand-staff merge only): attribute
elements keep only their clef children and are removed when left empty. -/
def delAttrsMeas (m : Meas) : Meas :=
  (m.1, m.2.filterMap (fun e =>
    match e with
    | PElm.attributes cs =>
        if (cs.filter (fun c => c == "clef")).isEmpty then none
        else some (PElm.attributes (cs.filter (fun c => c == "clef")))
    | e => some e))

/-- One iteration of the `mergePartList` loop: merge a later part `p2` into
the accumulated first part `p1` — strip non-clef attributes from `p2` when
merging a grand staff, pad `p1` with empty measures up to `p2`'s length,
then merge measure by measure with the slur and voice offsets taken from the
padded first part.  Measures of `p1` beyond `p2`'s length are kept as they
are. -/
def mergeTwoParts (p1 p2 : List Meas) (rOpt isGrand : Bool) : List Meas :=
  List.zipWith
    (fun ma mb => (ma.1,
      mergeMeasure ma.2 mb.2
        (slurMaxPart (padPart p1 (if isGrand then p2.map delAttrsMeas else p2).length))
        (voiceMaxPart (padPart p1 (if isGrand then p2.map delAttrsMeas else p2).length))
        rOpt isGrand))
    (padPart p1 (if isGrand then p2.map delAttrsMeas else p2).length)
    (if isGrand then p2.map delAttrsMeas else p2)
  ++ (padPart p1 (if isGrand then p2.map delAttrsMeas else p2).length).drop
      (if isGrand then p2.map delAttrsMeas else p2).length

/-- `mergePartList` (abc2xml.py, lines 572-594): fold the later parts into
the first one. -/
def mergePartList (parts : List (List Meas)) (rOpt isGrand : Bool) : List Meas :=
  match parts with
  | [] => []
  | p1 :: rest => rest.foldl (fun acc p2 => mergeTwoParts acc p2 rOpt isGrand) p1

theorem padPart_length (p1 : List Meas) (n2 : Nat) (h : p1.length ≤ n2) :
    (padPart p1 n2).length = n2 := by
  unfold padPart
  simp only [List.length_append, List.length_map, List.length_range']
  omega

theorem padPart_getElem?_left (p1 : List Meas) (n2 i : Nat) (h : i < p1.length) :
    (padPart p1 n2)[i]? = p1[i]? := by
  unfold padPart
  exact List.getElem?_append_left h

theorem padPart_getElem?_right (p1 : List Meas) (n2 i : Nat)
    (h1 : p1.length ≤ i) (h2 : i < n2) :
    (padPart p1 n2)[i]? = some (i + 1, ([] : List PElm)) := by
  unfold padPart
  rw [List.getElem?_append_right h1, List.getElem?_map,
    List.getElem?_range' _ _ (show i - p1.length < n2 - p1.length by omega)]
  have harith : p1.length + 1 + (i - p1.length) = i + 1 := by omega
  simp [harith]

/-- C10.  When a later part `p2` has more measures than the first part `p1`
(numbered consecutively from 1), the merge first pads `p1` with empty
measures numbered consecutively up to `p2`'s length: the merged part has
exactly `p2`'s measure count, all measure numbers remain consecutive, and
every trailing measure of `p2` is merged into a freshly appended empty
measure rather than dropped. -/
theorem mergePartList_pads_first (p1 p2 : List Meas) (rOpt : Bool)
    (hlen : p1.length < p2.length)
    (hnum : ∀ i, i < p1.length → (p1[i]?).map Prod.fst = some (i + 1)) :
    (mergePartList [p1, p2] rOpt false).length = p2.length
    ∧ (∀ i, i < p2.length →
        ((mergePartList [p1, p2] rOpt false)[i]?).map Prod.fst = some (i + 1))
    ∧ (∀ i m2i, p1.length ≤ i → p2[i]? = some m2i →
        (mergePartList [p1, p2] rOpt false)[i]? =
          some (i + 1, mergeMeasure [] m2i.2 (slurMaxPart (padPart p1 p2.length))
            (voiceMaxPart (padPart p1 p2.length)) rOpt false)) := by
  have hple : p1.length ≤ p2.length := le_of_lt hlen
  have hPlen : (padPart p1 p2.length).length = p2.length := padPart_length p1 p2.length hple
  have heq : mergePartList [p1, p2] rOpt false =
      List.zipWith
        (fun ma mb => (ma.1,
          mergeMeasure ma.2 mb.2 (slurMaxPart (padPart p1 p2.length))
            (voiceMaxPart (padPart p1 p2.length)) rOpt false))
        (padPart p1 p2.length) p2 := by
    show mergeTwoParts p1 p2 rOpt false = _
    unfold mergeTwoParts
    simp only [if_neg (by simp : ¬(false = true))]
    rw [List.drop_eq_nil_of_le (by rw [hPlen]), List.append_nil]
  refine ⟨?_, ?_, ?_⟩
  · rw [heq, List.length_zipWith, hPlen]
    omega
  · intro i hi
    have hp2 : p2[i]? = some (p2.get ⟨i, hi⟩) := List.getElem?_eq_getElem hi
    rw [heq, List.getElem?_zipWith', hp2]
    rcases Nat.lt_or_ge i p1.length with hlt | hge
    · have hp1 := hnum i hlt
      cases hp : p1[i]? with
      | none => rw [hp] at hp1; simp at hp1
      | some mi =>
        rw [hp] at hp1
        simp at hp1
        rw [padPart_getElem?_left p1 p2.length i hlt, hp]
        simpa using hp1
    · rw [padPart_getElem?_right p1 p2.length i hge hi]
      simp
  · intro i m2i hge hp2
    have hi : i < p2.length := by
      by_contra hcon
      rw [List.getElem?_eq_none (by omega)] at hp2
      exact Option.noConfusion hp2
    rw [heq, List.getElem?_zipWith', padPart_getElem?_right p1 p2.length i hge hi, hp2]
    simp

/-- Parts for the C10 witness. -/
def demoP1 : List Meas := [(1, demoM1)]

def demoP2 : List Meas := [(1, demoM2), (2, demoM2)]

/-- Witness for C10: merging a one-measure part with a two-measure part pads
the first part with measure number 2 and merges the trailing measure of the
second part into it. -/
theorem mergePartList_pads_first_witness :
    (mergePartList [demoP1, demoP2] false false).length = 2
    ∧ (mergePartList [demoP1, demoP2] false false)[1]? =
        some (2, [PElm.note false false false 240 [2] 2 []]) := by
  have h := mergePartList_pads_first demoP1 demoP2 false (by decide)
    (by decide)
  constructor
  · exact h.1
  · have h2 := h.2.2 1 (2, demoM2) (by decide) rfl
    rw [h2]
    rfl

/-! ## The tie table (C6)

`s.ties` maps an abc pitch tuple to `(alteration, notation-element,
overlay-voice-number)`; it is created empty in `MusicXml.reset` (line 735,
once per tune) and updated by `mkNote`/`doNotations` (lines 884-885 and
926-969): before emitting a note, every open tie of the same overlay whose
pitch neither matches the note nor occurs among a chord's pitches is
converted to a slur and deleted (unless the note is a chord or grace note);
a tie open on the note's own pitch tuple in the same overlay is stopped and
deleted; a tie marker on the note inserts a new entry.  The xml notation
element stored in the entry is not modelled (it only receives the emitted
tied/slur elements); the alteration string and overlay number are. -/

/-- The tie table: a finite map (association list with distinct keys) from
pitch tuple to (alteration, overlay number). -/
abbrev TieTab := List (Ptup × String × Nat)

def tabFind : TieTab → Ptup → Option (String × Nat)
  | [], _ => none
  | kv :: t, pt => if kv.1 = pt then some kv.2 else tabFind t pt

def tabErase (tab : TieTab) (pt : Ptup) : TieTab :=
  tab.filter (fun kv => decide (kv.1 ≠ pt))

def tabInsert (tab : TieTab) (pt : Ptup) (v : String × Nat) : TieTab :=
  (pt, v) :: tabErase tab pt

/-- One note/rest event as seen by the tie logic of `doNotations`. -/
structure NoteEv where
  ptup : Ptup
  isChord : Bool
  isGrace : Bool
  tie : Bool
  pitches : List Ptup
  alter : String
  overlay : Nat

/-- The keep-conditions of the scan over open ties (lines 926-933): an entry
survives if it belongs to a different overlay, its pitch occurs among the
current chord's pitches, the current note is a chord note or a grace note,
or its pitch equals the current note's pitch; otherwise it is converted to a
slur and deleted. -/
def tieScanKeep (ev : NoteEv) (kv : Ptup × String × Nat) : Bool :=
  decide (kv.2.2 ≠ ev.overlay)
  || (!ev.pitches.isEmpty && decide (kv.1 ∈ ev.pitches))
  || ev.isChord
  || decide (kv.1 = ev.ptup)
  || ev.isGrace

def tieScanTab (tab : TieTab) (ev : NoteEv) : TieTab :=
  tab.filter (tieScanKeep ev)

/-- `tstop` (line 885): an entry is open on this pitch tuple in this
overlay, computed on the table before the scan. -/
def tieStop (tab : TieTab) (ev : NoteEv) : Bool :=
  match tabFind tab ev.ptup with
  | some v => decide (v.2 = ev.overlay)
  | none => false

def postStop (tab : TieTab) (ev : NoteEv) : TieTab :=
  if tieStop tab ev then tabErase (tieScanTab tab ev) ev.ptup
  else tieScanTab tab ev

/-- Effect of emitting one note on the tie table. -/
def processNote (tab : TieTab) (ev : NoteEv) : TieTab :=
  if ev.tie then tabInsert (postStop tab ev) ev.ptup (ev.alter, ev.overlay)
  else postStop tab ev

/-- Effect of emitting a whole voice body on the tie table.  `mkPart` (lines
1403-1429) resets slur state per voice but not the tie table, which is only
emptied by `reset` at tune start. -/
def processVoice (tab : TieTab) (evs : List NoteEv) : TieTab :=
  evs.foldl processNote tab

/-- A tied note that ends the voice. -/
def demoTieEv : NoteEv :=
  { ptup := ("A", 0), isChord := false, isGrace := false, tie := true,
    pitches := [], alter := "", overlay := 0 }

/-- C6 fails on the code: a tie opened on the last note of an overlay's
voice is never removed — the entry survives past the overlay's last measure
(and even into the next voice, since `mkPart` does not clear `s.ties`). -/
theorem tie_entry_survives_voice_end :
    processVoice [] [demoTieEv] = [(("A", 0), ("", 0))]
    ∧ processVoice [] [demoTieEv] ≠ [] := by
  refine ⟨rfl, ?_⟩
  decide

theorem tabFind_eq_of_mem (tab : TieTab) (kv : Ptup × String × Nat)
    (hkeys : (tab.map Prod.fst).Nodup) (hmem : kv ∈ tab) :
    tabFind tab kv.1 = some kv.2 := by
  induction tab with
  | nil => cases hmem
  | cons hd tl ih =>
    rw [List.map_cons, List.nodup_cons] at hkeys
    rcases List.mem_cons.mp hmem with rfl | hmem2
    · simp [tabFind]
    · have hne : hd.1 ≠ kv.1 := by
        intro hcontra
        exact hkeys.1 (hcontra ▸ List.mem_map_of_mem Prod.fst hmem2)
      rw [tabFind, if_neg hne]
      exact ih hkeys.2 hmem2

/-- C6 (amended).  What the code guarantees: processing a real note — not a
chord note, not a grace note, with no tie of its own and no chord-pitch
list — removes every entry of its overlay from the table (the matching
pitch closes its tie, every other pitch of the overlay is converted to a
slur).  An entry whose overlay sees no further such note before the voice
ends simply survives: the table is only cleared at tune reset. -/
theorem processNote_clears_overlay (tab : TieTab) (ev : NoteEv)
    (hkeys : (tab.map Prod.fst).Nodup)
    (hc : ev.isChord = false) (hg : ev.isGrace = false) (ht : ev.tie = false)
    (hp : ev.pitches = []) :
    ∀ kv ∈ processNote tab ev, kv.2.2 ≠ ev.overlay := by
  intro kv hkv hov
  unfold processNote at hkv
  rw [ht] at hkv
  simp only [Bool.false_eq_true, if_false] at hkv
  have hkeep : ∀ kv2 ∈ tieScanTab tab ev, kv2.2.2 = ev.overlay → kv2.1 = ev.ptup := by
    intro kv2 hkv2 hov2
    have hkp := (List.mem_filter.mp hkv2).2
    unfold tieScanKeep at hkp
    rw [hc, hg, hp] at hkp
    simp only [List.isEmpty_nil, Bool.not_true, Bool.false_and, Bool.or_false,
      Bool.false_or] at hkp
    rcases Bool.or_eq_true_iff.mp hkp with h | h
    · exact absurd hov2 (of_decide_eq_true h)
    · exact of_decide_eq_true h
  unfold postStop at hkv
  by_cases hstop : tieStop tab ev = true
  · rw [if_pos hstop] at hkv
    obtain ⟨hmem1, hne⟩ := List.mem_filter.mp hkv
    have := hkeep kv hmem1 hov
    exact (of_decide_eq_true hne) this
  · rw [if_neg hstop] at hkv
    have hpt : kv.1 = ev.ptup := hkeep kv hkv hov
    have hmem : kv ∈ tab := (List.mem_filter.mp hkv).1
    have hfind := tabFind_eq_of_mem tab kv hkeys hmem
    apply hstop
    unfold tieStop
    rw [hpt] at hfind
    rw [hfind]
    simpa using hov

/-- Tie table for the C6 witness: an open tie on A in overlay 0 and one on B
in overlay 1. -/
def demoTieTab : TieTab := [(("A", 0), ("", 0)), (("B", 0), ("1", 1))]

/-- A plain untied C in overlay 0. -/
def demoPlainEv : NoteEv :=
  { ptup := ("C", 0), isChord := false, isGrace := false, tie := false,
    pitches := [], alter := "", overlay := 0 }

/-- Witness for the amended C6 theorem: the plain C in overlay 0 flushes the
open A-tie of overlay 0 (converted to a slur) while the overlay-1 entry
survives. -/
theorem processNote_clears_overlay_witness :
    processNote demoTieTab demoPlainEv = [(("B", 0), ("1", 1))]
    ∧ (("A", 0), ("", 0)) ∉ processNote demoTieTab demoPlainEv := by
  refine ⟨rfl, fun h => ?_⟩
  exact processNote_clears_overlay demoTieTab demoPlainEv (by decide)
    rfl rfl rfl rfl (("A", 0), ("", 0)) h rfl

/-! ## Duration normalization and dot derivation in mkNote (C7) -/

/-- Python 3 `round` of the exact rational `a / b` (nearest, ties to even),
for `b > 0`; the code computes `int (round (64 * float (num) / den))`, and
for every value that can be a tie (only `den = 128` after simplification)
the float quotient is exact, so exact rational rounding models it. -/
def pyRound (a b : Nat) : Nat :=
  if 2 * (a % b) < b then a / b
  else if b < 2 * (a % b) then a / b + 1
  else if (a / b) % 2 = 0 then a / b else a / b + 1

/-- Duration normalization of `mkNote` (abc2xml.py, lines 823-830): a zero
denominator becomes 1 (illegal ABC such as "A2 1"), the note's fraction is
multiplied by the current unit length and simplified, and a denominator
exceeding 64 is clamped: the note is rescaled to `round (64 * num / den)`
sixty-fourths — at least one — and re-simplified, with a diagnostic. -/
def mkNoteDur (unitL : Nat × Nat) (nnum nden : Nat) : Nat × Nat :=
  if (simplify (nnum * unitL.1) ((if nden = 0 then 1 else nden) * unitL.2)).2 > 64 then
    simplify
      (max (pyRound
        (64 * (simplify (nnum * unitL.1) ((if nden = 0 then 1 else nden) * unitL.2)).1)
        ((simplify (nnum * unitL.1) ((if nden = 0 then 1 else nden) * unitL.2)).2)) 1)
      64
  else simplify (nnum * unitL.1) ((if nden = 0 then 1 else nden) * unitL.2)

/-- Dot derivation of `mkNote` (abc2xml.py, lines 835-838): the duration is
scaled by 1/4 (simplified) for the type lookup; a numerator of 3 yields one
dot and halves the denominator, a numerator of 7 yields two dots and
quarters it.  Returns (quarter-scaled numerator, adjusted denominator, dot
count). -/
def mkTypeDots (num den : Nat) : Nat × Nat × Nat :=
  ((simplify num (den * 4)).1,
   if (simplify num (den * 4)).1 = 3 then (simplify num (den * 4)).2 / 2
   else if (simplify num (den * 4)).1 = 7 then (simplify num (den * 4)).2 / 4
   else (simplify num (den * 4)).2,
   if (simplify num (den * 4)).1 = 3 then 1
   else if (simplify num (den * 4)).1 = 7 then 2
   else 0)

/-- C7.  When the simplified unit-scaled duration has a denominator above
64, `mkNote` rounds it to `max (round (64 num / den)) 1` sixty-fourths and
re-simplifies; the result always has denominator ≤ 64 and numerator ≥ 1.
After quarter-scaling, numerator 3 gives one dot with the denominator
halved and numerator 7 gives two dots with the denominator quartered. -/
theorem mkNote_duration_normalization (unitL : Nat × Nat) (nnum nden : Nat)
    (hbig : 64 <
      (simplify (nnum * unitL.1) ((if nden = 0 then 1 else nden) * unitL.2)).2) :
    (mkNoteDur unitL nnum nden =
      simplify
        (max (pyRound
          (64 * (simplify (nnum * unitL.1) ((if nden = 0 then 1 else nden) * unitL.2)).1)
          ((simplify (nnum * unitL.1) ((if nden = 0 then 1 else nden) * unitL.2)).2)) 1)
        64)
    ∧ (mkNoteDur unitL nnum nden).2 ≤ 64
    ∧ 1 ≤ (mkNoteDur unitL nnum nden).1
    ∧ (∀ num den, (simplify num (den * 4)).1 = 3 →
        mkTypeDots num den = (3, (simplify num (den * 4)).2 / 2, 1))
    ∧ (∀ num den, (simplify num (den * 4)).1 = 7 →
        mkTypeDots num den = (7, (simplify num (den * 4)).2 / 4, 2)) := by
  have hif : mkNoteDur unitL nnum nden =
      simplify
        (max (pyRound
          (64 * (simplify (nnum * unitL.1) ((if nden = 0 then 1 else nden) * unitL.2)).1)
          ((simplify (nnum * unitL.1) ((if nden = 0 then 1 else nden) * unitL.2)).2)) 1)
        64 := by
    unfold mkNoteDur
    rw [if_pos hbig]
  refine ⟨hif, ?_, ?_, ?_, ?_⟩
  · rw [hif]
    unfold simplify
    simp only
    exact Nat.div_le_self 64 _
  · rw [hif]
    unfold simplify
    simp only
    set r := max (pyRound
      (64 * (simplify (nnum * unitL.1) ((if nden = 0 then 1 else nden) * unitL.2)).1)
      ((simplify (nnum * unitL.1) ((if nden = 0 then 1 else nden) * unitL.2)).2)) 1 with hr
    have hrpos : 0 < r := by
      rw [hr]
      omega
    have hgpos : 0 < Nat.gcd r 64 := Nat.gcd_pos_of_pos_right r (by omega)
    exact Nat.div_pos (Nat.le_of_dvd hrpos (Nat.gcd_dvd_left r 64)) hgpos
  · intro num den h3
    unfold mkTypeDots
    rw [h3]
    simp
  · intro num den h7
    unfold mkTypeDots
    rw [h7]
    simp

/-- Witness for C7 at unit length 1/8 and note fraction 1/16: the scaled
duration 1/128 has denominator 128 > 64; `round (64/128) = 0` (tie to
even), forced to 1, giving 1/64.  And the quarter-scaled fraction 3/32 (a
dotted 1/8 within unit 1/4) yields one dot with denominator 16. -/
theorem mkNote_duration_normalization_witness :
    mkNoteDur (1, 8) 1 16 = (1, 64) ∧ mkTypeDots 3 8 = (3, 16, 1) := by
  have h := mkNote_duration_normalization (1, 8) 1 16 (by decide)
  constructor
  · rw [h.1]
    rfl
  · have h3 := h.2.2.2.1 3 8 (by decide)
    rw [h3]
    rfl

end AbcXml
